import Mathlib

/-!
Shallow embedding of `src/using_python.py` (a pure-Python one-billion-row
style aggregator): streaming `;`-separated temperature records, per-station
minimum / mean / maximum statistics, sorted fixed-precision report.

Modelling conventions:

* Python `float` values are modelled as exact rationals `ℚ`.  The special
  literals `inf` / `infinity` / `nan` accepted by Python's `float`
  constructor have no rational counterpart and are outside the model;
  measurements are finite.  Consequently binary floating-point rounding of
  sums and means is not modelled: accumulation is exact (the spec's Design
  Notes treat binary-representation artifacts as unspecified behaviour).
* The input file is modelled as its decoded text (`String`) with
  universal-newline translation already applied — the source opens the file
  in text mode, so every line terminator the `csv` reader sees is a single
  `'\n'`.
* `logging` / `tqdm` side effects are modelled by returning the list of rows
  reported to the warning sink alongside the result.
-/

namespace OBRC

/-! ### Model of Python's `str.strip` and `float(str)` -/

/-- Whitespace as recognised by `Char.isWhitespace`; used to model the
whitespace stripping of Python's `str.strip()` and `float()` (Python also
strips some further Unicode space characters, not modelled here). -/
def pyWS (c : Char) : Bool := c.isWhitespace

/-- Model of Python `str.strip()` on a character list: drop whitespace from
both ends. -/
def pyStripL (cs : List Char) : List Char :=
  ((cs.dropWhile pyWS).reverse.dropWhile pyWS).reverse

/-- Model of Python `str.strip()`, as used on the station-name field. -/
def pyStrip (s : String) : String := (pyStripL s.data).asString

/-- Numeric value of a decimal digit character. -/
def digVal (c : Char) : ℕ := c.toNat - 48

/-- Consume a maximal decimal-digit run at the front, allowing a single `_`
between two digits as Python's number parsing does.  Accumulates the value
in `acc` and the digit count in `n`.  An `_` not followed by a digit is left
in the remainder (it then rejects later as trailing garbage, as in CPython). -/
def digRunGo (acc n : ℕ) : List Char → ℕ × ℕ × List Char
  | [] => (acc, n, [])
  | c :: rest =>
    if c.isDigit then digRunGo (acc * 10 + digVal c) (n + 1) rest
    else if c = '_' then
      match rest with
      | c2 :: rest2 =>
        if c2.isDigit then digRunGo (acc * 10 + digVal c2) (n + 1) rest2
        else (acc, n, c :: rest)
      | [] => (acc, n, c :: rest)
    else (acc, n, c :: rest)

/-- A digit run must start with a digit; returns (value, digit count, rest). -/
def digRun (cs : List Char) : Option (ℕ × ℕ × List Char) :=
  match cs with
  | c :: rest => if c.isDigit then some (digRunGo (digVal c) 1 rest) else none
  | [] => none

/-- Optional leading sign; returns the sign as a rational factor. -/
def sgn (cs : List Char) : ℚ × List Char :=
  match cs with
  | c :: rest => if c = '+' then (1, rest) else if c = '-' then (-1, rest) else (1, cs)
  | [] => (1, cs)

/-- After the mantissa: either nothing is left, or an exponent part
`e`/`E` `[sign]` digit-run followed by nothing.  Any other remainder is
trailing garbage and rejects the whole literal. -/
def pyFin (m : ℚ) : List Char → Option ℚ
  | [] => some m
  | c :: rest =>
    if c = 'e' ∨ c = 'E' then
      match rest with
      | '+' :: r =>
        match digRun r with
        | some (e, _, []) => some (m * (10 : ℚ) ^ (e : ℤ))
        | _ => none
      | '-' :: r =>
        match digRun r with
        | some (e, _, []) => some (m * (10 : ℚ) ^ (-(e : ℤ)))
        | _ => none
      | r =>
        match digRun r with
        | some (e, _, []) => some (m * (10 : ℚ) ^ (e : ℤ))
        | _ => none
    else none

/-- After the integer digits (value `q`, sign factor `sg1`): an optional
fractional part, then the optional exponent part handled by `pyFin`. -/
def mantTail (sg1 q : ℚ) (rest : List Char) : Option ℚ :=
  match rest with
  | '.' :: rest2 =>
    match digRun rest2 with
    | some (f, fd, rest3) => (pyFin (q + (f : ℚ) / (10 : ℚ) ^ fd) rest3).map (sg1 * ·)
    | none => (pyFin q rest2).map (sg1 * ·)
  | _ => (pyFin q rest).map (sg1 * ·)

/-- Model of CPython's `float(str)` restricted to finite values: optional
surrounding whitespace, optional sign, then `digits ["." [digits]]` or
`"." digits` (underscores allowed between digits), then an optional
exponent part.  The special strings Python additionally accepts
(`inf`, `infinity`, `nan`, case-insensitively) are outside the rational
model (see the module docstring). -/
def pyFloat? (s : String) : Option ℚ :=
  let cs := pyStripL s.data
  let p := sgn cs
  match digRun p.2 with
  | some (i, _, rest) => mantTail p.1 (i : ℚ) rest
  | none =>
    match p.2 with
    | '.' :: rest2 =>
      match digRun rest2 with
      | some (f, fd, rest3) =>
        (pyFin ((f : ℚ) / (10 : ℚ) ^ fd) rest3).map (p.1 * ·)
      | none => none
    | _ => none

/-! ### Model of `csv.reader(file, delimiter=';')`

CPython's `_csv` reader state machine, default dialect (quote character
`"`, doublequote on, strict off), specialised to delimiter `;` and to
single-`'\n'` line terminators (the file is opened in text mode, so
universal-newline translation has already turned every terminator into
`'\n'`). -/

/-- Reader states (the `EAT_CRNL` state of CPython collapses away because
every terminator is a single `'\n'` here). -/
inductive CsvSt
  | startRecord
  | startField
  | inField
  | inQuoted
  | quoteInQuoted
deriving DecidableEq

/-- Run the reader over the remaining characters.  `fields` holds the
completed fields of the current record in order; `cur` the characters of the
current field, reversed.  At end of input a pending record is emitted, as
CPython's non-strict reader does — including after an unterminated quote. -/
def csvRun : CsvSt → List String → List Char → List Char → List (List String)
  | st, fields, cur, [] =>
    match st with
    | .startRecord => []
    | _ => [fields ++ [cur.reverse.asString]]
  | st, fields, cur, c :: rest =>
    match st with
    | .startRecord =>
      if c = '\n' then [] :: csvRun .startRecord [] [] rest
      else if c = '"' then csvRun .inQuoted fields cur rest
      else if c = ';' then csvRun .startField (fields ++ [cur.reverse.asString]) [] rest
      else csvRun .inField fields (c :: cur) rest
    | .startField =>
      if c = '\n' then (fields ++ [cur.reverse.asString]) :: csvRun .startRecord [] [] rest
      else if c = '"' then csvRun .inQuoted fields cur rest
      else if c = ';' then csvRun .startField (fields ++ [cur.reverse.asString]) [] rest
      else csvRun .inField fields (c :: cur) rest
    | .inField =>
      if c = '\n' then (fields ++ [cur.reverse.asString]) :: csvRun .startRecord [] [] rest
      else if c = ';' then csvRun .startField (fields ++ [cur.reverse.asString]) [] rest
      else csvRun .inField fields (c :: cur) rest
    | .inQuoted =>
      if c = '"' then csvRun .quoteInQuoted fields cur rest
      else csvRun .inQuoted fields (c :: cur) rest
    | .quoteInQuoted =>
      if c = '"' then csvRun .inQuoted fields ('"' :: cur) rest
      else if c = ';' then csvRun .startField (fields ++ [cur.reverse.asString]) [] rest
      else if c = '\n' then (fields ++ [cur.reverse.asString]) :: csvRun .startRecord [] [] rest
      else csvRun .inField fields (c :: cur) rest

/-- The rows `csv.reader(file, delimiter=';')` yields on the whole contents. -/
def csvRows (s : String) : List (List String) :=
  csvRun .startRecord [] [] s.data

/-! ### Model of the `TemperatureProcessor` class -/

/-- The two recoverable per-row failures: `IndexError` (fewer than two
columns) and `ValueError` (second column not a `float`), i.e. the spec's
`ParseError::MissingField` / `ParseError::InvalidNumber`. -/
inductive ParseErr
  | missingField
  | invalidNumber
deriving DecidableEq

/-- Model of `_parse_row`: at least two fields required (else `IndexError`),
first field stripped for the station name, second converted with `float`
(failure: `ValueError`).  Any further fields are ignored. -/
def parseRow : List String → Except ParseErr (String × ℚ)
  | f0 :: f1 :: _ =>
    match pyFloat? f1 with
    | some t => .ok (pyStrip f0, t)
    | none => .error .invalidNumber
  | _ => .error .missingField

/-- Insertion-ordered association-list lookup, modelling Python `dict`
access for a present key. -/
def getV {α : Type} : List (String × α) → String → Option α
  | [], _ => none
  | (k, v) :: rest, key => if k = key then some v else getV rest key

/-- Lookup with a `defaultdict`-style default for absent keys. -/
def getD {α : Type} (m : List (String × α)) (key : String) (d : α) : α :=
  (getV m key).getD d

/-- Model of `dict.__setitem__`: overwrite in place, or append a new key at
the end (Python dicts preserve insertion order). -/
def setV {α : Type} : List (String × α) → String → α → List (String × α)
  | [], key, v => [(key, v)]
  | (k, w) :: rest, key, v =>
    if k = key then (k, v) :: rest else (k, w) :: setV rest key v

/-- The four per-station dictionaries created in `__init__`:
`minimas = defaultdict(lambda: float("inf"))`,
`maximas = defaultdict(lambda: float("-inf"))`,
`somas = defaultdict(float)`, `medicoes = Counter()`. -/
structure ProcState where
  minimas : List (String × ℚ)
  maximas : List (String × ℚ)
  somas : List (String × ℚ)
  medicoes : List (String × ℕ)
deriving DecidableEq

/-- The empty state built by `__init__`. -/
def initState : ProcState := ⟨[], [], [], []⟩

/-- Model of `_atualizar_estatisticas`.  The `defaultdict` defaults
`float("inf")` / `float("-inf")` / `0.0` / `0` have no stored entry for an
absent key in the model; since `min(+inf, t) = t`, `max(-inf, t) = t` and
`0 + t = t` for every finite `t`, the first update for a key seeds its entry
with `t` itself (count `1`), which is exactly the observable `defaultdict`
behaviour on finite data. -/
def atualizarEstatisticas (st : ProcState) (nome : String) (t : ℚ) : ProcState where
  minimas := setV st.minimas nome
    (match getV st.minimas nome with | some m => min m t | none => t)
  maximas := setV st.maximas nome
    (match getV st.maximas nome with | some m => max m t | none => t)
  somas := setV st.somas nome (getD st.somas nome 0 + t)
  medicoes := setV st.medicoes nome (getD st.medicoes nome 0 + 1)

/-- The per-row loop of `processar`: valid rows update the statistics;
rows raising `ValueError` / `IndexError` are logged to the warning sink
(returned second, in stream order) and skipped, and the loop continues. -/
def processRows (st : ProcState) : List (List String) → ProcState × List (List String)
  | [] => (st, [])
  | r :: rest =>
    match parseRow r with
    | .ok kv => processRows (atualizarEstatisticas st kv.1 kv.2) rest
    | .error _ =>
      let p := processRows st rest
      (p.1, r :: p.2)

/-! ### Model of `_gerar_resultados` -/

/-- Round half to even, which is how `format(x, ".1f")` resolves exact decimal
ties.  (On binary doubles the tie point itself is usually perturbed by
representation error; the spec's Design Notes treat the exact tie behaviour
as unspecified, and the model works on the exact rational value.)
The comparison of the fractional part `q - ⌊q⌋` against `1/2` is carried out
on the numerator and denominator in integer arithmetic, so that the
definition evaluates by kernel reduction: `2 * (q.num - ⌊q⌋ * q.den)`
versus `q.den`. -/
def rndHalfEven (q : ℚ) : ℤ :=
  let f := q.floor
  let twiceFrac := 2 * (q.num - f * (q.den : ℤ))
  if twiceFrac < (q.den : ℤ) then f
  else if (q.den : ℤ) < twiceFrac then f + 1
  else if f % 2 = 0 then f else f + 1

/-- Model of the f-string conversion `f"{x:.1f}"`: the value scaled by ten,
rounded to an integer, rendered with a `.` before the last digit. -/
def fmt1 (q : ℚ) : String :=
  let n : ℤ := rndHalfEven (q * 10)
  (if n < 0 then "-" else "") ++ Nat.repr (n.natAbs / 10) ++ "." ++ Nat.repr (n.natAbs % 10)

/-- Key order used to model `sorted(resultados.items())`: Python compares
the `(station, triple)` tuples lexicographically, and since the stations
(dict keys) are pairwise distinct the comparison is decided by the station
strings alone, by code-point lexicographic order — which is exactly
`String.le` here. -/
def keyLe (a b : String × (ℚ × ℚ × ℚ)) : Prop := a.1 ≤ b.1

instance : DecidableRel keyLe := fun a b => String.decidableLE a.1 b.1

instance : IsTotal (String × (ℚ × ℚ × ℚ)) keyLe := ⟨fun a b => le_total a.1 b.1⟩

instance : IsTrans (String × (ℚ × ℚ × ℚ)) keyLe := ⟨fun _ _ _ h1 h2 => le_trans h1 h2⟩

/-- The strict key order; used to state that report keys are strictly
ascending. -/
def keyLt (a b : String × (ℚ × ℚ × ℚ)) : Prop := a.1 < b.1

instance : IsAntisymm (String × (ℚ × ℚ × ℚ)) keyLt :=
  ⟨fun _ _ h1 h2 => absurd h1 (lt_asymm h2)⟩

/-- One entry of the intermediate `resultados` dict built by
`_gerar_resultados` from a `medicoes` item: skipped when the count is zero,
otherwise the `(min, mean, max)` triple with `mean = sum / count` by exact
division. -/
def resultEntry (st : ProcState) (p : String × ℕ) : Option (String × (ℚ × ℚ × ℚ)) :=
  if p.2 = 0 then none
  else some (p.1, (getD st.minimas p.1 0, getD st.somas p.1 0 / (p.2 : ℚ),
                   getD st.maximas p.1 0))

/-- Model of `_gerar_resultados`: skip stations with a zero count, compute
`mean = sum / count` by exact division, sort by station, format each triple
with one fractional digit.  (The `defaultdict` reads `self.minimas[station]`
etc. always hit existing keys — every station counted by `medicoes` was
inserted into all four dictionaries by `_atualizar_estatisticas` — so the
unreachable absent-key default, which would be `±inf`, is rendered as `0`.) -/
def gerarResultados (st : ProcState) : List (String × String) :=
  let resultados := st.medicoes.filterMap (resultEntry st)
  let sortedResults := resultados.insertionSort keyLe
  sortedResults.map fun p => (p.1, fmt1 p.2.1 ++ "/" ++ fmt1 p.2.2.1 ++ "/" ++ fmt1 p.2.2.2)

/-- Model of `TemperatureProcessor.processar` on the decoded file contents,
starting from an arbitrary current state (the dictionaries persist on the
instance between calls): returns the updated state, the formatted results
and the rows reported to the warning sink. -/
def processarFrom (st : ProcState) (contents : String) :
    ProcState × List (String × String) × List (List String) :=
  let p := processRows st (csvRows contents)
  (p.1, gerarResultados p.1, p.2)

/-- `processar` on a freshly constructed processor. -/
def processar (contents : String) : List (String × String) :=
  (processarFrom initState contents).2.1

/-- The rows the warning sink receives during `processar`. -/
def processarLog (contents : String) : List (List String) :=
  (processarFrom initState contents).2.2

/-! ### Model of construction and the fatal path -/

/-- The fatal failure distinguishable from normal output: `FileNotFoundError`
raised by `__init__` (the spec's `SourceAccessError`). -/
inductive RunErr
  | sourceAccess
deriving DecidableEq

/-- A file system, mapping paths to decoded contents (`none`: the path does
not exist / is inaccessible). -/
def FileSys : Type := String → Option String

/-- Constructing a `TemperatureProcessor` and calling `processar` once:
`__init__` checks `self.path.exists()` and raises `FileNotFoundError` before
any row is read; otherwise the whole file is streamed and a report returned. -/
def runFile (fs : FileSys) (path : String) : Except RunErr (List (String × String)) :=
  match fs path with
  | none => .error .sourceAccess
  | some contents => .ok (processar contents)

/-! ### Derived definitions used to state the claims -/

/-- The valid `(station, value)` records among a row list, in stream order. -/
def validRecs (rows : List (List String)) : List (String × ℚ) :=
  rows.filterMap fun r => (parseRow r).toOption

/-- Fold the statistics update over a list of valid records. -/
def applyRecs (st : ProcState) (recs : List (String × ℚ)) : ProcState :=
  recs.foldl (fun s kv => atualizarEstatisticas s kv.1 kv.2) st

/-- The state of the four dictionaries after a fresh `processar` run over the
given rows. -/
def finalState (rows : List (List String)) : ProcState :=
  (processRows initState rows).1

/-- The values contributed to station `k` by a record list, in stream order. -/
def valsOf (k : String) (recs : List (String × ℚ)) : List ℚ :=
  (recs.filter fun kv => kv.1 == k).map Prod.snd

/-- Combine two optional statistics with `f` (`none`: no record yet). -/
def ocomb {α : Type} (f : α → α → α) : Option α → Option α → Option α
  | none, b => b
  | some a, none => some a
  | some a, some b => some (f a b)

/-- Per-value fold step of the `minimas` dictionary. -/
def minStep (acc : Option ℚ) (v : ℚ) : Option ℚ := ocomb min acc (some v)

/-- Per-value fold step of the `maximas` dictionary. -/
def maxStep (acc : Option ℚ) (v : ℚ) : Option ℚ := ocomb max acc (some v)

/-- Per-value fold step of the `somas` dictionary. -/
def sumStep (acc : Option ℚ) (v : ℚ) : Option ℚ := some (acc.getD 0 + v)

/-- Per-value fold step of the `medicoes` counter. -/
def cntStep (acc : Option ℕ) (_ : ℚ) : Option ℕ := some (acc.getD 0 + 1)

/-- The key column of a dictionary. -/
def keysOf {α : Type} (m : List (String × α)) : List String := m.map Prod.fst

/-! ### Definitions written from the claims' words (for comparison)

The two definitions below do not model the source; they render the
behaviour the claims describe, so that the claims can be compared with the
source's behaviour. -/

/-- Plain split on every `;` — the field splitting claim C5 describes
("split the line into fields on the `;` delimiter"). -/
def splitSemiL : List Char → List (List Char)
  | [] => [[]]
  | c :: rest =>
    match splitSemiL rest with
    | [] => [[c]]
    | f :: fs => if c = ';' then [] :: f :: fs else (c :: f) :: fs

/-- Plain split on every `;`, on strings. -/
def splitSemi (s : String) : List String :=
  (splitSemiL s.data).map List.asString

/-- Prepend pending characters onto the first chunk of a split. -/
def glueHead (pre : List Char) : List (List Char) → List (List Char)
  | [] => [pre]
  | f :: fs => (pre ++ f) :: fs

/-- Strip one optional leading sign character. -/
def stripSign (cs : List Char) : List Char :=
  match cs with
  | c :: rest => if c = '+' then rest else if c = '-' then rest else cs
  | [] => cs

/-- After the integer digits: nothing, or a `.` followed by digits only. -/
def fracOk (rest : List Char) : Bool :=
  match rest with
  | [] => true
  | c :: fs => c = '.' && fs.all Char.isDigit

/-- The literal form claim C4 describes — "a decimal number (optional
leading sign, optional fractional part)": `[+|-] digits ["." digits*]`. -/
def simpleDec (cs0 : List Char) : Bool :=
  let cs := stripSign cs0
  !(cs.takeWhile Char.isDigit).isEmpty && fracOk (cs.dropWhile Char.isDigit)

/-! ### Association-list lemmas -/

theorem getV_setV_self {α : Type} (m : List (String × α)) (k : String) (v : α) :
    getV (setV m k v) k = some v := by
  induction m with
  | nil => simp [setV, getV]
  | cons p rest ih =>
    obtain ⟨a, b⟩ := p
    by_cases h : a = k
    · simp [setV, getV, h]
    · simp [setV, getV, h, ih]

theorem getV_setV_ne {α : Type} (m : List (String × α)) {k k' : String} (h : k' ≠ k)
    (v : α) : getV (setV m k' v) k = getV m k := by
  induction m with
  | nil => simp [setV, getV, h]
  | cons p rest ih =>
    obtain ⟨a, b⟩ := p
    by_cases ha : a = k'
    · subst ha; simp [setV, getV, h]
    · simp [setV, getV, ha, ih]

/-! ### The processing loop as a fold over the valid records -/

theorem processRows_eq (rows : List (List String)) : ∀ st : ProcState,
    processRows st rows =
      (applyRecs st (validRecs rows), rows.filter fun r => !(parseRow r).isOk) := by
  induction rows with
  | nil => intro st; simp [processRows, applyRecs, validRecs]
  | cons r rest ih =>
    intro st
    cases h : parseRow r with
    | ok kv =>
      simp [processRows, h, ih, applyRecs, validRecs, Except.toOption, Except.isOk,
        Except.toBool, List.filter_cons]
    | error e =>
      simp [processRows, h, ih, applyRecs, validRecs, Except.toOption, Except.isOk,
        Except.toBool, List.filter_cons]

/-! ### Claim C2 -/

/-- **C2**: processing the five-line input stream `Hamburg;12.0`,
`Bulawayo;8.9`, `Hamburg;14.0`, `Palembang;38.8`, `Hamburg;10.0` returns
exactly the report `Bulawayo: 8.9/8.9/8.9`, `Hamburg: 10.0/12.0/14.0`,
`Palembang: 38.8/38.8/38.8`, in that order. -/
theorem c2_scenario_report :
    processar "Hamburg;12.0\nBulawayo;8.9\nHamburg;14.0\nPalembang;38.8\nHamburg;10.0\n" =
      [("Bulawayo", "8.9/8.9/8.9"), ("Hamburg", "10.0/12.0/14.0"),
       ("Palembang", "38.8/38.8/38.8")] := by
  with_unfolding_all rfl

/-! ### Claim C7 -/

/-- **C7**: if the input source cannot be opened (the path has no contents),
the run fails with the fatal source-access error (`FileNotFoundError`,
raised by `__init__` before any row is read), and no report — not even a
partial one — is returned: the result is `Except.error`, which carries no
report. -/
theorem c7_missing_source_fatal (fs : FileSys) (path : String)
    (h : fs path = none) : runFile fs path = .error .sourceAccess := by
  unfold runFile
  rw [h]

/-- Witness for `c7_missing_source_fatal`: the empty file system. -/
theorem c7_missing_source_fatal_witness :
    runFile (fun _ => none) "data/measurements.txt" = .error .sourceAccess :=
  c7_missing_source_fatal (fun _ => none) "data/measurements.txt" rfl

/-! ### Claim C3 -/

/-- **C3**: rows that fail parsing are exactly the ones reported to the
diagnostic sink; the final state is the fold over the valid records only,
so malformed rows are excluded from all statistics and never abort the
run; and if every row is malformed the run completes normally and returns
the empty report. -/
theorem c3_malformed_rows_recovered (contents : String) :
    processarLog contents = (csvRows contents).filter (fun r => !(parseRow r).isOk) ∧
    (processarFrom initState contents).1 = applyRecs initState (validRecs (csvRows contents)) ∧
    ((∀ r ∈ csvRows contents, (parseRow r).isOk = false) → processar contents = []) := by
  refine ⟨?_, ?_, ?_⟩
  · simp [processarLog, processarFrom, processRows_eq]
  · simp [processarFrom, processRows_eq]
  · intro h
    have hv : validRecs (csvRows contents) = [] := by
      unfold validRecs
      rw [List.filterMap_eq_nil_iff]
      intro r hr
      cases hp : parseRow r with
      | ok kv =>
        exfalso
        have hko := h r hr
        rw [hp] at hko
        simp [Except.isOk, Except.toBool] at hko
      | error e => simp [Except.toOption]
    have : processar contents = gerarResultados (applyRecs initState []) := by
      simp [processar, processarFrom, processRows_eq, hv]
    rw [this]
    rfl

/-- Witness for `c3_malformed_rows_recovered`: the spec's all-malformed
scenario `onlykey`, `key;notanumber`. -/
theorem c3_malformed_rows_recovered_witness :
    (∀ r ∈ csvRows "onlykey\nkey;notanumber\n", (parseRow r).isOk = false) ∧
    processar "onlykey\nkey;notanumber\n" = [] := by
  constructor
  · decide
  · exact (c3_malformed_rows_recovered "onlykey\nkey;notanumber\n").2.2 (by decide)

/-! ### Claim C4, counterexample part -/

/-- **C4** is too narrow: `1e1` is not a decimal literal in the claim's
sense (optional leading sign, digits, optional fractional part — no
exponent), yet the row parser accepts it with value `10`, because Python's
`float` also accepts exponent notation.  So "fails … for every second
field that is not such a decimal literal" is false. -/
theorem c4_counterexample :
    simpleDec "1e1".data = false ∧ parseRow ["X", "1e1"] = .ok ("X", 10) :=
  ⟨by decide, by with_unfolding_all rfl⟩

/-! ### Claim C5, counterexample part -/

/-- **C5** is inexact about the splitting: the source splits with `csv`
rules (delimiter `;`, quote `"`), not plainly on every `;`.  On the line
`"a;b";1.0` the `csv` reader produces the two fields `a;b` and `1.0`
(so the station key is `a;b`), while the plain `;`-split the claim
describes would give first field `"a` (key `"a` after trimming). -/
theorem c5_counterexample :
    csvRows "\"a;b\";1.0" = [["a;b", "1.0"]] ∧
    splitSemi "\"a;b\";1.0" = ["\"a", "b\"", "1.0"] ∧
    processar "\"a;b\";1.0" = [("a;b", "1.0/1.0/1.0")] :=
  ⟨by with_unfolding_all rfl, by with_unfolding_all rfl, by with_unfolding_all rfl⟩

/-! ### Number-grammar lemmas for the amended claim C4 -/

theorem not_ws_of_digit {c : Char} (h : c.isDigit = true) : pyWS c = false := by
  simp only [Char.isDigit, Bool.and_eq_true, decide_eq_true_eq] at h
  obtain ⟨h1, h2⟩ := h
  simp only [pyWS, Char.isWhitespace, Bool.or_eq_false_iff]
  refine ⟨⟨⟨?_, ?_⟩, ?_⟩, ?_⟩ <;>
  · simp only [decide_eq_false_iff_not]
    rintro rfl
    revert h1
    decide

theorem pyStripL_id (cs : List Char) (h : ∀ c ∈ cs, pyWS c = false) :
    pyStripL cs = cs := by
  have h1 : cs.dropWhile pyWS = cs := by
    cases cs with
    | nil => rfl
    | cons c rest => simp [List.dropWhile_cons, h c (by simp)]
  have h2 : cs.reverse.dropWhile pyWS = cs.reverse := by
    cases hc : cs.reverse with
    | nil => rfl
    | cons c rest =>
      have hmem : c ∈ cs := by
        have h3 : c ∈ cs.reverse := by rw [hc]; simp
        simpa using h3
      rw [List.dropWhile_cons, h c hmem]
      simp
  simp [pyStripL, h1, h2]

theorem digRunGo_digits (rest : List Char)
    (hrest : rest = [] ∨ ∃ c rest2, rest = c :: rest2 ∧ c.isDigit = false ∧ c ≠ '_') :
    ∀ ds : List Char, (∀ c ∈ ds, c.isDigit = true) →
      ∀ acc n, ∃ v m, digRunGo acc n (ds ++ rest) = (v, m, rest) := by
  intro ds
  induction ds with
  | nil =>
    intro _ acc n
    rcases hrest with h | ⟨c, rest2, hr, hc, hcu⟩
    · subst h; exact ⟨acc, n, rfl⟩
    · subst hr
      refine ⟨acc, n, ?_⟩
      rw [digRunGo.eq_def]
      simp [hc, hcu]
  | cons d ds ih =>
    intro hds acc n
    have hd : d.isDigit = true := hds d (by simp)
    obtain ⟨v, m, hvm⟩ := ih (fun c hc => hds c (by simp [hc])) (acc * 10 + digVal d) (n + 1)
    refine ⟨v, m, ?_⟩
    rw [List.cons_append, digRunGo.eq_def]
    simp [hd, hvm]

theorem digRun_digits (rest : List Char)
    (hrest : rest = [] ∨ ∃ c rest2, rest = c :: rest2 ∧ c.isDigit = false ∧ c ≠ '_')
    (d : Char) (ds : List Char) (hds : ∀ c ∈ d :: ds, c.isDigit = true) :
    ∃ v m, digRun ((d :: ds) ++ rest) = some (v, m, rest) := by
  have hd : d.isDigit = true := hds d (by simp)
  obtain ⟨v, m, hvm⟩ :=
    digRunGo_digits rest hrest ds (fun c hc => hds c (by simp [hc])) (digVal d) 1
  exact ⟨v, m, by simp [digRun, hd, hvm]⟩

theorem mantTail_isSome (sg1 q : ℚ) (rest : List Char)
    (hr : rest = [] ∨ ∃ fs, rest = '.' :: fs ∧ ∀ c ∈ fs, c.isDigit = true) :
    (mantTail sg1 q rest).isSome = true := by
  rcases hr with rfl | ⟨fs, rfl, hfs⟩
  · simp [mantTail, pyFin]
  · cases fs with
    | nil => simp [mantTail, digRun, pyFin]
    | cons f fs2 =>
      obtain ⟨v2, m2, hdig2⟩ := digRun_digits [] (Or.inl rfl) f fs2 hfs
      rw [List.append_nil] at hdig2
      simp [mantTail, hdig2, pyFin]

theorem simpleDec_core (cs : List Char)
    (hne : (cs.takeWhile Char.isDigit).isEmpty = false)
    (hfrac : fracOk (cs.dropWhile Char.isDigit) = true) :
    ∃ ds rest, cs = ds ++ rest ∧ ds ≠ [] ∧ (∀ c ∈ ds, c.isDigit = true) ∧
      (rest = [] ∨ ∃ fs, rest = '.' :: fs ∧ ∀ c ∈ fs, c.isDigit = true) := by
  refine ⟨cs.takeWhile Char.isDigit, cs.dropWhile Char.isDigit,
    (List.takeWhile_append_dropWhile _ _).symm, ?_, ?_, ?_⟩
  · intro hnil
    rw [hnil] at hne
    simp at hne
  · intro c hc
    exact List.mem_takeWhile_imp hc
  · cases hrest : cs.dropWhile Char.isDigit with
    | nil => exact Or.inl rfl
    | cons c fs =>
      right
      rw [hrest] at hfrac
      unfold fracOk at hfrac
      rw [Bool.and_eq_true, decide_eq_true_eq] at hfrac
      obtain ⟨hdot, hall⟩ := hfrac
      subst hdot
      refine ⟨fs, rfl, fun c hc => ?_⟩
      have := List.all_eq_true.mp hall c hc
      simpa using this

theorem simpleDec_decomp (cs0 : List Char) (h : simpleDec cs0 = true) :
    ∃ sg ds rest, cs0 = sg ++ ds ++ rest ∧
      (sg = [] ∨ sg = ['+'] ∨ sg = ['-']) ∧
      ds ≠ [] ∧ (∀ c ∈ ds, c.isDigit = true) ∧
      (rest = [] ∨ ∃ fs, rest = '.' :: fs ∧ ∀ c ∈ fs, c.isDigit = true) := by
  unfold simpleDec at h
  rw [Bool.and_eq_true, Bool.not_eq_true'] at h
  obtain ⟨hne, hfrac⟩ := h
  cases cs0 with
  | nil =>
    exfalso
    simp [stripSign] at hne
  | cons c rest0 =>
    by_cases hp : c = '+'
    · subst hp
      have hss : stripSign ('+' :: rest0) = rest0 := by simp [stripSign]
      rw [hss] at hne hfrac
      obtain ⟨ds, rest, hsplit, hds, hdig, hr⟩ := simpleDec_core rest0 hne hfrac
      exact ⟨['+'], ds, rest, by simp [hsplit], by simp, hds, hdig, hr⟩
    · by_cases hm : c = '-'
      · subst hm
        have hss : stripSign ('-' :: rest0) = rest0 := by simp [stripSign]
        rw [hss] at hne hfrac
        obtain ⟨ds, rest, hsplit, hds, hdig, hr⟩ := simpleDec_core rest0 hne hfrac
        exact ⟨['-'], ds, rest, by simp [hsplit], by simp, hds, hdig, hr⟩
      · have hss : stripSign (c :: rest0) = c :: rest0 := by simp [stripSign, hp, hm]
        rw [hss] at hne hfrac
        obtain ⟨ds, rest, hsplit, hds, hdig, hr⟩ := simpleDec_core (c :: rest0) hne hfrac
        exact ⟨[], ds, rest, by simpa using hsplit, by simp, hds, hdig, hr⟩

theorem pyFloat?_isSome_of_simpleDec (s : String) (h : simpleDec s.data = true) :
    (pyFloat? s).isSome = true := by
  obtain ⟨sg, ds, rest, hcs, hsg, hdsne, hds, hr⟩ := simpleDec_decomp s.data h
  have hws : ∀ c ∈ s.data, pyWS c = false := by
    rw [hcs]
    intro c hc
    rcases List.mem_append.mp hc with hc1 | hcr
    · rcases List.mem_append.mp hc1 with hcs1 | hcd
      · rcases hsg with rfl | rfl | rfl
        · simp at hcs1
        · simp at hcs1
          subst hcs1
          decide
        · simp at hcs1
          subst hcs1
          decide
      · exact not_ws_of_digit (hds c hcd)
    · rcases hr with rfl | ⟨fs, rfl, hfs⟩
      · simp at hcr
      · rcases List.mem_cons.mp hcr with rfl | hcf
        · decide
        · exact not_ws_of_digit (hfs c hcf)
  have hstrip : pyStripL s.data = sg ++ ds ++ rest := by
    rw [pyStripL_id s.data hws, hcs]
  obtain ⟨d, ds', rfl⟩ : ∃ d ds', ds = d :: ds' := by
    cases ds with
    | nil => exact absurd rfl hdsne
    | cons d ds' => exact ⟨d, ds', rfl⟩
  have hd : d.isDigit = true := hds d (by simp)
  have hdp : d ≠ '+' := by rintro rfl; revert hd; decide
  have hdm : d ≠ '-' := by rintro rfl; revert hd; decide
  have hrest : rest = [] ∨ ∃ c rest2, rest = c :: rest2 ∧ c.isDigit = false ∧ c ≠ '_' := by
    rcases hr with rfl | ⟨fs, rfl, _⟩
    · exact Or.inl rfl
    · exact Or.inr ⟨'.', fs, rfl, by decide, by decide⟩
  obtain ⟨v, m, hdig⟩ := digRun_digits rest hrest d ds' hds
  rcases hsg with rfl | rfl | rfl
  · have hsgn : sgn ([] ++ (d :: ds') ++ rest) = (1, (d :: ds') ++ rest) := by
      simp [sgn, hdp, hdm]
    unfold pyFloat?
    rw [hstrip]
    simp only [hsgn, hdig]
    exact mantTail_isSome 1 (v : ℚ) rest hr
  · have hsgn : sgn (['+'] ++ (d :: ds') ++ rest) = (1, (d :: ds') ++ rest) := by
      simp [sgn]
    unfold pyFloat?
    rw [hstrip]
    simp only [hsgn, hdig]
    exact mantTail_isSome 1 (v : ℚ) rest hr
  · have hsgn : sgn (['-'] ++ (d :: ds') ++ rest) = (-1, (d :: ds') ++ rest) := by
      simp [sgn]
    unfold pyFloat?
    rw [hstrip]
    simp only [hsgn, hdig]
    exact mantTail_isSome (-1) (v : ℚ) rest hr

/-! ### Claim C4, amended part -/

/-- **C4** amended: for every line with at least 2 fields, the row parser
accepts every second field that is a decimal number in the claimed sense
(optional leading sign, optional fractional part), but its acceptance is
strictly wider — the full Python `float` literal grammar, e.g. exponent
notation (see `c4_counterexample`); and every failure on such a line is
`ParseError::InvalidNumber`. -/
theorem c4_parse_outcomes (f0 f1 : String) (rest : List String) :
    (simpleDec f1.data = true → ∃ q, parseRow (f0 :: f1 :: rest) = .ok (pyStrip f0, q)) ∧
    (∀ e, parseRow (f0 :: f1 :: rest) = .error e → e = .invalidNumber) := by
  constructor
  · intro h
    obtain ⟨q, hq⟩ := Option.isSome_iff_exists.mp (pyFloat?_isSome_of_simpleDec f1 h)
    exact ⟨q, by simp [parseRow, hq]⟩
  · intro e he
    cases hp : pyFloat? f1 with
    | some q => simp [parseRow, hp] at he
    | none =>
      simp [parseRow, hp] at he
      exact he.symm

/-- Witness for `c4_parse_outcomes` at the literal `12.5`. -/
theorem c4_parse_outcomes_witness :
    simpleDec "12.5".data = true ∧
    ∃ q, parseRow ["X", "12.5"] = .ok (pyStrip "X", q) :=
  ⟨by decide, (c4_parse_outcomes "X" "12.5" []).1 (by decide)⟩

/-! ### CSV splitting lemmas for the amended claim C5 -/

theorem splitSemiL_ne_nil (cs : List Char) : splitSemiL cs ≠ [] := by
  cases cs with
  | nil => simp [splitSemiL]
  | cons c rest =>
    unfold splitSemiL
    cases h : splitSemiL rest with
    | nil => simp
    | cons f fs =>
      by_cases hc : c = ';' <;> simp [hc]

theorem glueHead_nil_of_ne (l : List (List Char)) (h : l ≠ []) :
    glueHead [] l = l := by
  cases l with
  | nil => exact absurd rfl h
  | cons f fs => simp [glueHead]

theorem csvRun_startField_eq_inField (fields : List String) (cs : List Char)
    (h : ∀ c, cs.head? = some c → c ≠ '"') :
    csvRun .startField fields [] cs = csvRun .inField fields [] cs := by
  cases cs with
  | nil => rfl
  | cons c rest =>
    have hc : c ≠ '"' := h c rfl
    rw [csvRun.eq_def, csvRun.eq_def]
    by_cases h1 : c = '\n'
    · simp [h1]
    · by_cases h2 : c = ';' <;> simp [h1, h2, hc]

theorem csvRun_inField_split (cs : List Char) :
    ∀ fields cur, '"' ∉ cs → '\n' ∉ cs →
      csvRun .inField fields cur (cs ++ ['\n']) =
        [fields ++ (glueHead cur.reverse (splitSemiL cs)).map List.asString] := by
  induction cs with
  | nil =>
    intro fields cur _ _
    rw [List.nil_append, csvRun.eq_def]
    simp [splitSemiL, glueHead, csvRun]
  | cons c rest ih =>
    intro fields cur hq hn
    have hq1 : c ≠ '"' := fun h => hq (h ▸ List.mem_cons_self c rest)
    have hn1 : c ≠ '\n' := fun h => hn (h ▸ List.mem_cons_self c rest)
    have hq2 : '"' ∉ rest := fun h => hq (List.mem_cons_of_mem c h)
    have hn2 : '\n' ∉ rest := fun h => hn (List.mem_cons_of_mem c h)
    obtain ⟨f, fs, hsr⟩ : ∃ f fs, splitSemiL rest = f :: fs := by
      cases h : splitSemiL rest with
      | nil => exact absurd h (splitSemiL_ne_nil rest)
      | cons f fs => exact ⟨f, fs, rfl⟩
    by_cases hc : c = ';'
    · subst hc
      have hstep : csvRun .inField fields cur ((';' :: rest) ++ ['\n']) =
          csvRun .startField (fields ++ [cur.reverse.asString]) [] (rest ++ ['\n']) := by
        rw [List.cons_append, csvRun.eq_def]
        simp [hn1]
      have hhead : ∀ c', (rest ++ ['\n']).head? = some c' → c' ≠ '"' := by
        cases rest with
        | nil => intro c' hc'; simp at hc'; subst hc'; decide
        | cons c2 r2 =>
          intro c' hc'
          simp at hc'
          subst hc'
          exact fun h => hq2 (h ▸ List.mem_cons_self c2 r2)
      rw [hstep, csvRun_startField_eq_inField _ _ hhead, ih _ _ hq2 hn2]
      simp [splitSemiL, hsr, glueHead, glueHead_nil_of_ne _ (splitSemiL_ne_nil rest)]
    · have hstep : csvRun .inField fields cur ((c :: rest) ++ ['\n']) =
          csvRun .inField fields (c :: cur) (rest ++ ['\n']) := by
        rw [List.cons_append, csvRun.eq_def]
        simp [hn1, hc]
      rw [hstep, ih _ _ hq2 hn2]
      simp [splitSemiL, hsr, glueHead, hc]

theorem csvRun_startRecord_eq_inField (cs : List Char) (hne : cs ≠ [])
    (hn : ∀ c, cs.head? = some c → c ≠ '\n')
    (hq : ∀ c, cs.head? = some c → c ≠ '"') :
    csvRun .startRecord [] [] cs = csvRun .inField [] [] cs := by
  cases cs with
  | nil => exact absurd rfl hne
  | cons c rest =>
    have h1 := hn c rfl
    have h2 := hq c rfl
    rw [csvRun.eq_def, csvRun.eq_def]
    by_cases hc : c = ';' <;> simp [h1, h2, hc]

/-! ### Claim C5, amended part -/

/-- **C5** amended: for every non-empty raw input line containing no quote
character, the `csv` reader's fields are exactly the plain split of the
line on the `;` delimiter (on lines with a `"` the `csv` quoting rules
apply instead, see `c5_counterexample`; a fully empty line yields the empty
record, not `[""]`); the parser takes the first field trimmed as the key
and the second as the value text, and ignores any extra fields. -/
theorem c5_fields (s : String) (hq : '"' ∉ s.data) (hn : '\n' ∉ s.data)
    (hne : s ≠ "") :
    csvRows (s ++ "\n") = [splitSemi s] ∧
    (∀ f0 f1 r r', parseRow (f0 :: f1 :: r) = parseRow (f0 :: f1 :: r')) ∧
    (∀ f0 f1 r q, parseRow (f0 :: f1 :: r) = .ok q →
      q.1 = pyStrip f0 ∧ pyFloat? f1 = some q.2) := by
  refine ⟨?_, ?_, ?_⟩
  · have hdata : s.data ≠ [] := by
      intro h0
      apply hne
      cases s with
      | mk data => simp at h0; simp [h0]
    have hhn : ∀ c, (s.data ++ ['\n']).head? = some c → c ≠ '\n' := by
      cases hd : s.data with
      | nil => exact absurd hd hdata
      | cons c0 r0 =>
        intro c' hc'
        simp at hc'
        subst hc'
        exact fun h => hn (by rw [hd, h]; exact List.mem_cons_self _ _)
    have hhq : ∀ c, (s.data ++ ['\n']).head? = some c → c ≠ '"' := by
      cases hd : s.data with
      | nil => exact absurd hd hdata
      | cons c0 r0 =>
        intro c' hc'
        simp at hc'
        subst hc'
        exact fun h => hq (by rw [hd, h]; exact List.mem_cons_self _ _)
    unfold csvRows
    rw [String.data_append, show ("\n" : String).data = ['\n'] from rfl]
    rw [csvRun_startRecord_eq_inField _ (by simp [hdata]) hhn hhq]
    rw [csvRun_inField_split s.data [] [] hq hn]
    simp [splitSemi, glueHead_nil_of_ne _ (splitSemiL_ne_nil s.data)]
  · intro f0 f1 r r'
    rfl
  · intro f0 f1 r q hok
    cases hp : pyFloat? f1 with
    | some t =>
      simp [parseRow, hp] at hok
      simp [← hok, hp]
    | none => simp [parseRow, hp] at hok

/-- Witness for `c5_fields` on the line `Hamburg;12.0`. -/
theorem c5_fields_witness :
    csvRows ("Hamburg;12.0" ++ "\n") = [splitSemi "Hamburg;12.0"] :=
  (c5_fields "Hamburg;12.0" (by decide) (by decide) (by decide)).1

/-! ### Per-key characterization of the aggregation fold -/

theorem applyRecs_cons (st : ProcState) (kv : String × ℚ) (recs : List (String × ℚ)) :
    applyRecs st (kv :: recs) = applyRecs (atualizarEstatisticas st kv.1 kv.2) recs := rfl

theorem valsOf_cons (k : String) (kv : String × ℚ) (recs : List (String × ℚ)) :
    valsOf k (kv :: recs) =
      if kv.1 = k then kv.2 :: valsOf k recs else valsOf k recs := by
  by_cases h : kv.1 = k <;> simp [valsOf, List.filter_cons, h]

theorem getV_atualizar_minimas_self (st : ProcState) (nome : String) (t : ℚ) :
    getV (atualizarEstatisticas st nome t).minimas nome =
      minStep (getV st.minimas nome) t := by
  cases hg : getV st.minimas nome <;>
    simp [atualizarEstatisticas, getV_setV_self, minStep, ocomb, hg]

theorem getV_atualizar_maximas_self (st : ProcState) (nome : String) (t : ℚ) :
    getV (atualizarEstatisticas st nome t).maximas nome =
      maxStep (getV st.maximas nome) t := by
  cases hg : getV st.maximas nome <;>
    simp [atualizarEstatisticas, getV_setV_self, maxStep, ocomb, hg]

theorem getV_atualizar_somas_self (st : ProcState) (nome : String) (t : ℚ) :
    getV (atualizarEstatisticas st nome t).somas nome =
      sumStep (getV st.somas nome) t := by
  cases hg : getV st.somas nome <;>
    simp [atualizarEstatisticas, getV_setV_self, sumStep, getD, hg]

theorem getV_atualizar_medicoes_self (st : ProcState) (nome : String) (t : ℚ) :
    getV (atualizarEstatisticas st nome t).medicoes nome =
      cntStep (getV st.medicoes nome) t := by
  cases hg : getV st.medicoes nome <;>
    simp [atualizarEstatisticas, getV_setV_self, cntStep, getD, hg]

theorem getV_atualizar_ne (st : ProcState) {nome k : String} (h : nome ≠ k) (t : ℚ) :
    getV (atualizarEstatisticas st nome t).minimas k = getV st.minimas k ∧
    getV (atualizarEstatisticas st nome t).maximas k = getV st.maximas k ∧
    getV (atualizarEstatisticas st nome t).somas k = getV st.somas k ∧
    getV (atualizarEstatisticas st nome t).medicoes k = getV st.medicoes k := by
  refine ⟨?_, ?_, ?_, ?_⟩ <;> simp [atualizarEstatisticas, getV_setV_ne _ h]

theorem getV_minimas_applyRecs (recs : List (String × ℚ)) :
    ∀ (st : ProcState) (k : String),
      getV (applyRecs st recs).minimas k =
        (valsOf k recs).foldl minStep (getV st.minimas k) := by
  induction recs with
  | nil => intro st k; simp [applyRecs, valsOf]
  | cons kv recs ih =>
    intro st k
    rw [applyRecs_cons, ih]
    by_cases h : kv.1 = k
    · rw [valsOf_cons, if_pos h, List.foldl_cons]
      subst h
      rw [getV_atualizar_minimas_self]
    · rw [valsOf_cons, if_neg h, (getV_atualizar_ne st h kv.2).1]

theorem getV_maximas_applyRecs (recs : List (String × ℚ)) :
    ∀ (st : ProcState) (k : String),
      getV (applyRecs st recs).maximas k =
        (valsOf k recs).foldl maxStep (getV st.maximas k) := by
  induction recs with
  | nil => intro st k; simp [applyRecs, valsOf]
  | cons kv recs ih =>
    intro st k
    rw [applyRecs_cons, ih]
    by_cases h : kv.1 = k
    · rw [valsOf_cons, if_pos h, List.foldl_cons]
      subst h
      rw [getV_atualizar_maximas_self]
    · rw [valsOf_cons, if_neg h, (getV_atualizar_ne st h kv.2).2.1]

theorem getV_somas_applyRecs (recs : List (String × ℚ)) :
    ∀ (st : ProcState) (k : String),
      getV (applyRecs st recs).somas k =
        (valsOf k recs).foldl sumStep (getV st.somas k) := by
  induction recs with
  | nil => intro st k; simp [applyRecs, valsOf]
  | cons kv recs ih =>
    intro st k
    rw [applyRecs_cons, ih]
    by_cases h : kv.1 = k
    · rw [valsOf_cons, if_pos h, List.foldl_cons]
      subst h
      rw [getV_atualizar_somas_self]
    · rw [valsOf_cons, if_neg h, (getV_atualizar_ne st h kv.2).2.2.1]

theorem getV_medicoes_applyRecs (recs : List (String × ℚ)) :
    ∀ (st : ProcState) (k : String),
      getV (applyRecs st recs).medicoes k =
        (valsOf k recs).foldl cntStep (getV st.medicoes k) := by
  induction recs with
  | nil => intro st k; simp [applyRecs, valsOf]
  | cons kv recs ih =>
    intro st k
    rw [applyRecs_cons, ih]
    by_cases h : kv.1 = k
    · rw [valsOf_cons, if_pos h, List.foldl_cons]
      subst h
      rw [getV_atualizar_medicoes_self]
    · rw [valsOf_cons, if_neg h, (getV_atualizar_ne st h kv.2).2.2.2]

/-! ### Closed forms of the four folds from the empty start -/

theorem foldl_minStep_some (l : List ℚ) :
    ∀ a : ℚ, l.foldl minStep (some a) = some (l.foldl min a) := by
  induction l with
  | nil => intro a; rfl
  | cons v vs ih => intro a; simp [minStep, ocomb, List.foldl_cons, ih]

theorem foldl_minStep_none (l : List ℚ) :
    l.foldl minStep none = if l = [] then none else some (l.tail.foldl min (l.headI)) := by
  cases l with
  | nil => rfl
  | cons v vs => simp [minStep, ocomb, List.foldl_cons, foldl_minStep_some]

theorem foldl_maxStep_some (l : List ℚ) :
    ∀ a : ℚ, l.foldl maxStep (some a) = some (l.foldl max a) := by
  induction l with
  | nil => intro a; rfl
  | cons v vs ih => intro a; simp [maxStep, ocomb, List.foldl_cons, ih]

theorem foldl_maxStep_none (l : List ℚ) :
    l.foldl maxStep none = if l = [] then none else some (l.tail.foldl max (l.headI)) := by
  cases l with
  | nil => rfl
  | cons v vs => simp [maxStep, ocomb, List.foldl_cons, foldl_maxStep_some]

theorem foldl_sumStep_some (l : List ℚ) :
    ∀ a : ℚ, l.foldl sumStep (some a) = some (a + l.sum) := by
  induction l with
  | nil => intro a; simp
  | cons v vs ih =>
    intro a
    simp [sumStep, List.foldl_cons, ih, add_assoc]

theorem foldl_sumStep_none (l : List ℚ) :
    l.foldl sumStep none = if l = [] then none else some l.sum := by
  cases l with
  | nil => rfl
  | cons v vs => simp [sumStep, List.foldl_cons, foldl_sumStep_some]

theorem foldl_cntStep_some (l : List ℚ) :
    ∀ a : ℕ, l.foldl cntStep (some a) = some (a + l.length) := by
  induction l with
  | nil => intro a; simp
  | cons v vs ih =>
    intro a
    simp [cntStep, List.foldl_cons, ih]
    omega

theorem foldl_cntStep_none (l : List ℚ) :
    l.foldl cntStep none = if l = [] then none else some l.length := by
  cases l with
  | nil => rfl
  | cons v vs => simp [cntStep, List.foldl_cons, foldl_cntStep_some, Nat.add_comm]

/-! ### `foldl min` / `foldl max` facts -/

theorem foldl_min_le_init (vs : List ℚ) : ∀ a : ℚ, vs.foldl min a ≤ a := by
  induction vs with
  | nil => intro a; exact le_refl a
  | cons v vs ih => intro a; exact le_trans (ih (min a v)) (min_le_left a v)

theorem foldl_min_mem (vs : List ℚ) :
    ∀ a : ℚ, vs.foldl min a = a ∨ vs.foldl min a ∈ vs := by
  induction vs with
  | nil => intro a; exact Or.inl rfl
  | cons v vs ih =>
    intro a
    rcases ih (min a v) with h | h
    · rcases min_choice a v with hm | hm
      · exact Or.inl (by rw [List.foldl_cons, h, hm])
      · exact Or.inr (by rw [List.foldl_cons, h, hm]; simp)
    · exact Or.inr (by simp [h])

theorem foldl_min_le_mem (vs : List ℚ) : ∀ (a x : ℚ), x ∈ vs → vs.foldl min a ≤ x := by
  induction vs with
  | nil => intro a x hx; simp at hx
  | cons v vs ih =>
    intro a x hx
    rcases List.mem_cons.mp hx with rfl | hx
    · exact le_trans (foldl_min_le_init vs (min a x)) (min_le_right a x)
    · exact ih (min a v) x hx

theorem le_foldl_max_init (vs : List ℚ) : ∀ a : ℚ, a ≤ vs.foldl max a := by
  induction vs with
  | nil => intro a; exact le_refl a
  | cons v vs ih => intro a; exact le_trans (le_max_left a v) (ih (max a v))

theorem foldl_max_mem (vs : List ℚ) :
    ∀ a : ℚ, vs.foldl max a = a ∨ vs.foldl max a ∈ vs := by
  induction vs with
  | nil => intro a; exact Or.inl rfl
  | cons v vs ih =>
    intro a
    rcases ih (max a v) with h | h
    · rcases max_choice a v with hm | hm
      · exact Or.inl (by rw [List.foldl_cons, h, hm])
      · exact Or.inr (by rw [List.foldl_cons, h, hm]; simp)
    · exact Or.inr (by simp [h])

theorem mem_le_foldl_max (vs : List ℚ) : ∀ (a x : ℚ), x ∈ vs → x ≤ vs.foldl max a := by
  induction vs with
  | nil => intro a x hx; simp at hx
  | cons v vs ih =>
    intro a x hx
    rcases List.mem_cons.mp hx with rfl | hx
    · exact le_trans (le_max_right a x) (le_foldl_max_init vs (max a x))
    · exact ih (max a v) x hx

/-! ### Claim C1 -/

/-- **C1**: per-key statistics.  First conjunct: one update step behaves as
the claim states — on a key's first valid record the entry is seeded with
`minimum = maximum = sum = value`, `count = 1` (that is `minStep none v =
some v` etc.), and each subsequent record applies `min` / `max` / `+` / `+1`
to the stored entry.  Remaining conjuncts: hence in the final state of a
run, a key has entries exactly when it received a valid record, its count
is the number of valid records with that key, its sum the (exact, in the
rational model) stream sum of the contributed values, and its minimum /
maximum a contributed value below / above all contributed values. -/
theorem c1_aggregation_invariants (rows : List (List String)) (k : String) :
    (∀ (st0 : ProcState) (v : ℚ),
      getV (atualizarEstatisticas st0 k v).minimas k = minStep (getV st0.minimas k) v ∧
      getV (atualizarEstatisticas st0 k v).maximas k = maxStep (getV st0.maximas k) v ∧
      getV (atualizarEstatisticas st0 k v).somas k = sumStep (getV st0.somas k) v ∧
      getV (atualizarEstatisticas st0 k v).medicoes k = cntStep (getV st0.medicoes k) v) ∧
    (valsOf k (validRecs rows) = [] →
      getV (finalState rows).medicoes k = none ∧
      getV (finalState rows).minimas k = none ∧
      getV (finalState rows).maximas k = none ∧
      getV (finalState rows).somas k = none) ∧
    (valsOf k (validRecs rows) ≠ [] →
      getV (finalState rows).medicoes k = some (valsOf k (validRecs rows)).length ∧
      getV (finalState rows).somas k = some (valsOf k (validRecs rows)).sum ∧
      (∃ mn, getV (finalState rows).minimas k = some mn ∧
        mn ∈ valsOf k (validRecs rows) ∧ ∀ x ∈ valsOf k (validRecs rows), mn ≤ x) ∧
      (∃ mx, getV (finalState rows).maximas k = some mx ∧
        mx ∈ valsOf k (validRecs rows) ∧ ∀ x ∈ valsOf k (validRecs rows), x ≤ mx)) := by
  have hfinal : finalState rows = applyRecs initState (validRecs rows) := by
    unfold finalState
    rw [processRows_eq]
  refine ⟨?_, ?_, ?_⟩
  · intro st0 v
    exact ⟨getV_atualizar_minimas_self st0 k v, getV_atualizar_maximas_self st0 k v,
      getV_atualizar_somas_self st0 k v, getV_atualizar_medicoes_self st0 k v⟩
  · intro hnil
    rw [hfinal]
    rw [getV_medicoes_applyRecs, getV_minimas_applyRecs, getV_maximas_applyRecs,
      getV_somas_applyRecs]
    show (valsOf k (validRecs rows)).foldl cntStep (getV initState.medicoes k) = none ∧ _
    simp [initState, getV, hnil]
  · intro hne
    rw [hfinal, getV_medicoes_applyRecs, getV_minimas_applyRecs, getV_maximas_applyRecs,
      getV_somas_applyRecs]
    cases hv : valsOf k (validRecs rows) with
    | nil => exact absurd hv hne
    | cons v vs =>
      refine ⟨?_, ?_, ?_, ?_⟩
      · show List.foldl cntStep (getV initState.medicoes k) (v :: vs) = _
        simp only [initState, getV, List.foldl_cons]
        rw [show cntStep none v = some 1 from rfl, foldl_cntStep_some, Nat.add_comm]
        simp
      · show List.foldl sumStep (getV initState.somas k) (v :: vs) = _
        simp only [initState, getV, List.foldl_cons]
        rw [show sumStep none v = some (0 + v) from rfl, foldl_sumStep_some, zero_add]
        simp
      · refine ⟨vs.foldl min v, ?_, ?_, ?_⟩
        · show List.foldl minStep (getV initState.minimas k) (v :: vs) = _
          simp only [initState, getV, List.foldl_cons]
          rw [show minStep none v = some v from rfl, foldl_minStep_some]
        · rcases foldl_min_mem vs v with h | h
          · rw [h]; simp
          · simp [h]
        · intro x hx
          rcases List.mem_cons.mp hx with rfl | hx
          · exact foldl_min_le_init vs x
          · exact foldl_min_le_mem vs v x hx
      · refine ⟨vs.foldl max v, ?_, ?_, ?_⟩
        · show List.foldl maxStep (getV initState.maximas k) (v :: vs) = _
          simp only [initState, getV, List.foldl_cons]
          rw [show maxStep none v = some v from rfl, foldl_maxStep_some]
        · rcases foldl_max_mem vs v with h | h
          · rw [h]; simp
          · simp [h]
        · intro x hx
          rcases List.mem_cons.mp hx with rfl | hx
          · exact le_foldl_max_init vs x
          · exact mem_le_foldl_max vs v x hx

/-- Witness for `c1_aggregation_invariants`: two records for station `A`. -/
theorem c1_aggregation_invariants_witness :
    getV (finalState [["A", "1.0"], ["A", "3.0"]]).medicoes "A" = some 2 := by
  have hv : valsOf "A" (validRecs [["A", "1.0"], ["A", "3.0"]]) = [1, 3] := by
    with_unfolding_all rfl
  have h := ((c1_aggregation_invariants [["A", "1.0"], ["A", "3.0"]] "A").2.2
    (by rw [hv]; exact List.cons_ne_nil 1 [3])).1
  rw [hv] at h
  simpa using h

/-! ### Claim C10 -/

/-- **C10**: calling `processar` twice on the same instance does not reset
the dictionaries — after the second pass over the same contents, a key's
count is twice its single-pass count and its sum twice its single-pass sum,
so `processar` is not idempotent on the processor's state. -/
theorem c10_second_run_accumulates (contents : String) (k : String) (n : ℕ) (q : ℚ)
    (hn : getV ((processarFrom initState contents).1).medicoes k = some n)
    (hs : getV ((processarFrom initState contents).1).somas k = some q) :
    getV ((processarFrom (processarFrom initState contents).1 contents).1).medicoes k =
      some (2 * n) ∧
    getV ((processarFrom (processarFrom initState contents).1 contents).1).somas k =
      some (2 * q) := by
  have h1 : (processarFrom initState contents).1 =
      applyRecs initState (validRecs (csvRows contents)) := by
    simp [processarFrom, processRows_eq]
  have h2 : (processarFrom (processarFrom initState contents).1 contents).1 =
      applyRecs (processarFrom initState contents).1 (validRecs (csvRows contents)) := by
    simp [processarFrom, processRows_eq]
  rw [h1, getV_medicoes_applyRecs] at hn
  rw [h1, getV_somas_applyRecs] at hs
  simp only [initState, getV] at hn hs
  rw [foldl_cntStep_none] at hn
  rw [foldl_sumStep_none] at hs
  by_cases hv : valsOf k (validRecs (csvRows contents)) = []
  · rw [if_pos hv] at hn
    exact absurd hn (by simp)
  · rw [if_neg hv] at hn
    rw [if_neg hv] at hs
    have hn2 : n = (valsOf k (validRecs (csvRows contents))).length := by
      exact (Option.some_inj.mp hn).symm
    have hs2 : q = (valsOf k (validRecs (csvRows contents))).sum := by
      exact (Option.some_inj.mp hs).symm
    constructor
    · rw [h2, getV_medicoes_applyRecs, h1, getV_medicoes_applyRecs]
      simp only [initState, getV]
      rw [foldl_cntStep_none, if_neg hv, foldl_cntStep_some]
      rw [hn2, two_mul]
    · rw [h2, getV_somas_applyRecs, h1, getV_somas_applyRecs]
      simp only [initState, getV]
      rw [foldl_sumStep_none, if_neg hv, foldl_sumStep_some]
      rw [hs2, two_mul]

/-- Witness for `c10_second_run_accumulates` on a one-line file. -/
theorem c10_second_run_accumulates_witness :
    getV ((processarFrom (processarFrom initState "A;1.0\n").1 "A;1.0\n").1).medicoes "A" =
      some (2 * 1) ∧
    getV ((processarFrom (processarFrom initState "A;1.0\n").1 "A;1.0\n").1).somas "A" =
      some (2 * 1) :=
  c10_second_run_accumulates "A;1.0\n" "A" 1 1 (by with_unfolding_all rfl)
    (by with_unfolding_all rfl)

/-! ### Key-set lemmas -/

theorem keysOf_setV {α : Type} (m : List (String × α)) (k : String) (v : α) :
    keysOf (setV m k v) = if k ∈ keysOf m then keysOf m else keysOf m ++ [k] := by
  induction m with
  | nil => simp [setV, keysOf]
  | cons p rest ih =>
    obtain ⟨a, b⟩ := p
    by_cases h : a = k
    · subst h
      simp [setV, keysOf]
    · rw [show setV ((a, b) :: rest) k v = (a, b) :: setV rest k v from by simp [setV, h]]
      show a :: keysOf (setV rest k v) = _
      rw [ih]
      by_cases hm : k ∈ keysOf rest
      · rw [if_pos hm,
          if_pos (show k ∈ keysOf ((a, b) :: rest) from List.mem_cons_of_mem _ hm)]
        rfl
      · rw [if_neg hm, if_neg (show k ∉ keysOf ((a, b) :: rest) from ?_)]
        · rfl
        · intro hmem
          rcases List.mem_cons.mp hmem with heq | hmem2
          · exact h heq.symm
          · exact hm hmem2

theorem mem_keysOf_setV {α : Type} (m : List (String × α)) (nome k : String) (v : α) :
    k ∈ keysOf (setV m nome v) ↔ k ∈ keysOf m ∨ k = nome := by
  rw [keysOf_setV]
  by_cases h : nome ∈ keysOf m
  · rw [if_pos h]
    constructor
    · exact Or.inl
    · rintro (hk | rfl)
      · exact hk
      · exact h
  · rw [if_neg h]
    simp

theorem getV_eq_none_iff {α : Type} (m : List (String × α)) (k : String) :
    getV m k = none ↔ k ∉ keysOf m := by
  induction m with
  | nil => simp [getV, keysOf]
  | cons p rest ih =>
    obtain ⟨a, b⟩ := p
    by_cases h : a = k
    · subst h
      simp [getV, keysOf]
    · simp [getV, keysOf, h, ih, Ne.symm h]

theorem getV_eq_some_iff_mem {α : Type} (m : List (String × α))
    (hnd : (keysOf m).Nodup) (k : String) (c : α) :
    getV m k = some c ↔ (k, c) ∈ m := by
  induction m with
  | nil => simp [getV]
  | cons p rest ih =>
    obtain ⟨a, b⟩ := p
    have hnd1 : (a :: keysOf rest).Nodup := hnd
    have ha : a ∉ keysOf rest := (List.nodup_cons.mp hnd1).1
    have hnd2 : (keysOf rest).Nodup := (List.nodup_cons.mp hnd1).2
    by_cases h : a = k
    · subst h
      show (if a = a then some b else getV rest a) = some c ↔ _
      rw [if_pos rfl]
      simp only [List.mem_cons, Option.some_inj]
      constructor
      · rintro rfl
        exact Or.inl rfl
      · rintro (hp | hp)
        · exact ((Prod.ext_iff.mp hp).2).symm
        · exact absurd (by simpa [keysOf] using List.mem_map_of_mem Prod.fst hp) ha
    · show (if a = k then some b else getV rest k) = some c ↔ _
      rw [if_neg h, ih hnd2]
      simp only [List.mem_cons]
      constructor
      · exact Or.inr
      · rintro (hp | hp)
        · exact absurd (congrArg Prod.fst hp).symm h
        · exact hp

theorem keysOf_atualizar_eq (st : ProcState) (nome : String) (t : ℚ)
    (h1 : keysOf st.minimas = keysOf st.medicoes)
    (h2 : keysOf st.maximas = keysOf st.medicoes)
    (h3 : keysOf st.somas = keysOf st.medicoes) :
    keysOf (atualizarEstatisticas st nome t).minimas =
      keysOf (atualizarEstatisticas st nome t).medicoes ∧
    keysOf (atualizarEstatisticas st nome t).maximas =
      keysOf (atualizarEstatisticas st nome t).medicoes ∧
    keysOf (atualizarEstatisticas st nome t).somas =
      keysOf (atualizarEstatisticas st nome t).medicoes := by
  refine ⟨?_, ?_, ?_⟩ <;> simp [atualizarEstatisticas, keysOf_setV, h1, h2, h3]

theorem applyRecs_keys_eq (recs : List (String × ℚ)) : ∀ st : ProcState,
    keysOf st.minimas = keysOf st.medicoes →
    keysOf st.maximas = keysOf st.medicoes →
    keysOf st.somas = keysOf st.medicoes →
    keysOf (applyRecs st recs).minimas = keysOf (applyRecs st recs).medicoes ∧
    keysOf (applyRecs st recs).maximas = keysOf (applyRecs st recs).medicoes ∧
    keysOf (applyRecs st recs).somas = keysOf (applyRecs st recs).medicoes := by
  induction recs with
  | nil => intro st h1 h2 h3; exact ⟨h1, h2, h3⟩
  | cons kv recs ih =>
    intro st h1 h2 h3
    obtain ⟨g1, g2, g3⟩ := keysOf_atualizar_eq st kv.1 kv.2 h1 h2 h3
    exact ih (atualizarEstatisticas st kv.1 kv.2) g1 g2 g3

theorem mem_keysOf_medicoes_applyRecs (recs : List (String × ℚ)) :
    ∀ (st : ProcState) (k : String),
      k ∈ keysOf (applyRecs st recs).medicoes ↔
        k ∈ keysOf st.medicoes ∨ k ∈ recs.map Prod.fst := by
  induction recs with
  | nil => intro st k; simp [applyRecs]
  | cons kv recs ih =>
    intro st k
    rw [applyRecs_cons, ih]
    have hstep : k ∈ keysOf (atualizarEstatisticas st kv.1 kv.2).medicoes ↔
        k ∈ keysOf st.medicoes ∨ k = kv.1 := by
      simp [atualizarEstatisticas, mem_keysOf_setV]
    rw [hstep]
    simp only [List.map_cons, List.mem_cons]
    tauto

theorem nodup_keysOf_medicoes_applyRecs (recs : List (String × ℚ)) :
    ∀ st : ProcState,
      (keysOf st.medicoes).Nodup → (keysOf (applyRecs st recs).medicoes).Nodup := by
  induction recs with
  | nil => intro st h; exact h
  | cons kv recs ih =>
    intro st h
    rw [applyRecs_cons]
    apply ih
    show (keysOf (setV st.medicoes kv.1 _)).Nodup
    rw [keysOf_setV]
    by_cases hm : kv.1 ∈ keysOf st.medicoes
    · rwa [if_pos hm]
    · rw [if_neg hm]
      simp [List.nodup_append, h, hm]

theorem length_keysOf {α : Type} (m : List (String × α)) :
    (keysOf m).length = m.length := by
  simp [keysOf]

/-! ### Claim C9 -/

/-- **C9**: the retained state is proportional to the number of distinct
keys seen, not to the number of records: the `medicoes` dictionary has
pairwise-distinct keys, its key set is exactly the set of keys of the valid
records, its size is the number of distinct such keys, and the other three
dictionaries have exactly the same size.  (The streaming aspect — the input
is consumed record by record and never retained — appears in the model as
the state depending on the rows only through this per-key fold.) -/
theorem c9_state_bounded_by_distinct_keys (rows : List (List String)) :
    (keysOf (finalState rows).medicoes).Nodup ∧
    (keysOf (finalState rows).medicoes).toFinset =
      ((validRecs rows).map Prod.fst).toFinset ∧
    (finalState rows).medicoes.length =
      ((validRecs rows).map Prod.fst).toFinset.card ∧
    (finalState rows).minimas.length = (finalState rows).medicoes.length ∧
    (finalState rows).maximas.length = (finalState rows).medicoes.length ∧
    (finalState rows).somas.length = (finalState rows).medicoes.length := by
  have hfinal : finalState rows = applyRecs initState (validRecs rows) := by
    unfold finalState
    rw [processRows_eq]
  have hnd : (keysOf (finalState rows).medicoes).Nodup := by
    rw [hfinal]
    exact nodup_keysOf_medicoes_applyRecs _ initState (by simp [initState, keysOf])
  have hmem : ∀ k, k ∈ keysOf (finalState rows).medicoes ↔
      k ∈ (validRecs rows).map Prod.fst := by
    intro k
    rw [hfinal, mem_keysOf_medicoes_applyRecs]
    simp [initState, keysOf]
  have htf : (keysOf (finalState rows).medicoes).toFinset =
      ((validRecs rows).map Prod.fst).toFinset := by
    apply Finset.ext
    intro a
    simp only [List.mem_toFinset]
    exact hmem a
  have hkeys := applyRecs_keys_eq (validRecs rows) initState rfl rfl rfl
  refine ⟨hnd, htf, ?_, ?_, ?_, ?_⟩
  · rw [← htf, List.toFinset_card_of_nodup hnd, length_keysOf]
  · rw [← length_keysOf (finalState rows).minimas,
      ← length_keysOf (finalState rows).medicoes, hfinal, hkeys.1]
  · rw [← length_keysOf (finalState rows).maximas,
      ← length_keysOf (finalState rows).medicoes, hfinal, hkeys.2.1]
  · rw [← length_keysOf (finalState rows).somas,
      ← length_keysOf (finalState rows).medicoes, hfinal, hkeys.2.2]

/-! ### Report-shape lemmas -/

theorem filterMap_keys_sublist {α β : Type} (f : String × α → Option (String × β))
    (hf : ∀ p q, f p = some q → q.1 = p.1) (m : List (String × α)) :
    ((m.filterMap f).map Prod.fst).Sublist (m.map Prod.fst) := by
  induction m with
  | nil => simp
  | cons p rest ih =>
    rw [List.filterMap_cons]
    cases hp : f p with
    | none =>
      rw [List.map_cons]
      exact ih.cons p.1
    | some q =>
      rw [List.map_cons, List.map_cons, hf p q hp]
      exact ih.cons₂ p.1

theorem resultEntry_key (st : ProcState) (p : String × ℕ) (q : String × (ℚ × ℚ × ℚ))
    (h : resultEntry st p = some q) : q.1 = p.1 := by
  unfold resultEntry at h
  by_cases h0 : p.2 = 0
  · rw [if_pos h0] at h
    exact absurd h (by simp)
  · rw [if_neg h0] at h
    obtain rfl := Option.some_inj.mp h
    rfl

theorem resultados_keys_nodup (st : ProcState) (hnd : (keysOf st.medicoes).Nodup) :
    ((st.medicoes.filterMap (resultEntry st)).map Prod.fst).Nodup :=
  (filterMap_keys_sublist (resultEntry st) (resultEntry_key st) st.medicoes).nodup hnd

theorem mem_resultados_iff (st : ProcState) (hnd : (keysOf st.medicoes).Nodup)
    (k : String) (t : ℚ × ℚ × ℚ) :
    (k, t) ∈ st.medicoes.filterMap (resultEntry st) ↔
      ∃ c, getV st.medicoes k = some c ∧ c ≠ 0 ∧
        t = (getD st.minimas k 0, getD st.somas k 0 / (c : ℚ), getD st.maximas k 0) := by
  rw [List.mem_filterMap]
  constructor
  · rintro ⟨p, hp, hfp⟩
    obtain ⟨a, c⟩ := p
    by_cases h0 : c = 0
    · rw [show resultEntry st (a, c) = none from by simp [resultEntry, h0]] at hfp
      exact absurd hfp (by simp)
    · rw [show resultEntry st (a, c) =
          some (a, (getD st.minimas a 0, getD st.somas a 0 / (c : ℚ), getD st.maximas a 0))
          from by simp [resultEntry, h0]] at hfp
      obtain ⟨h1, h2⟩ := Prod.ext_iff.mp (Option.some_inj.mp hfp)
      subst h1
      exact ⟨c, (getV_eq_some_iff_mem _ hnd _ _).mpr hp, h0, h2.symm⟩
  · rintro ⟨c, hc, h0, rfl⟩
    refine ⟨(k, c), (getV_eq_some_iff_mem _ hnd _ _).mp hc, ?_⟩
    simp [resultEntry, h0]

theorem sorted_keyLt_of_nodup (l : List (String × (ℚ × ℚ × ℚ))) (hs : l.Sorted keyLe)
    (hnd : (l.map Prod.fst).Nodup) : l.Pairwise keyLt := by
  have h2 : l.Pairwise fun a b => a.1 ≠ b.1 := List.pairwise_map.mp hnd
  exact (hs.and h2).imp fun {a b} h => lt_of_le_of_ne h.1 h.2

theorem gerar_entries (st : ProcState) (k : String) (s : String) :
    (k, s) ∈ gerarResultados st ↔
      ∃ t, (k, t) ∈ (st.medicoes.filterMap (resultEntry st)).insertionSort keyLe ∧
        s = fmt1 t.1 ++ "/" ++ fmt1 t.2.1 ++ "/" ++ fmt1 t.2.2 := by
  show (k, s) ∈ ((st.medicoes.filterMap (resultEntry st)).insertionSort keyLe).map
    (fun p => (p.1, fmt1 p.2.1 ++ "/" ++ fmt1 p.2.2.1 ++ "/" ++ fmt1 p.2.2.2)) ↔ _
  rw [List.mem_map]
  constructor
  · rintro ⟨p, hp, hfp⟩
    obtain ⟨h1, h2⟩ := Prod.ext_iff.mp hfp
    refine ⟨p.2, ?_, h2.symm⟩
    rwa [show (k, p.2) = p from Prod.ext_iff.mpr ⟨h1.symm, rfl⟩]
  · rintro ⟨t, ht, rfl⟩
    exact ⟨(k, t), ht, rfl⟩

/-! ### One-fractional-digit formatting lemmas -/

theorem digitChar_isDigit (d : ℕ) (h : d < 10) : (Nat.digitChar d).isDigit = true := by
  interval_cases d <;> decide

theorem toDigitsCore_all_digits : ∀ (fuel n : ℕ) (acc : List Char),
    (∀ c ∈ acc, c.isDigit = true) →
    ∀ c ∈ Nat.toDigitsCore 10 fuel n acc, c.isDigit = true := by
  intro fuel
  induction fuel with
  | zero => intro n acc hacc; exact hacc
  | succ fuel ih =>
    intro n acc hacc
    rw [Nat.toDigitsCore]
    have hd : (Nat.digitChar (n % 10)).isDigit = true :=
      digitChar_isDigit _ (Nat.mod_lt _ (by norm_num))
    by_cases h0 : n / 10 = 0
    · rw [if_pos h0]
      intro c hc
      rcases List.mem_cons.mp hc with rfl | hc
      · exact hd
      · exact hacc c hc
    · rw [if_neg h0]
      apply ih
      intro c hc
      rcases List.mem_cons.mp hc with rfl | hc
      · exact hd
      · exact hacc c hc

theorem repr_all_digits (n : ℕ) : ∀ c ∈ (Nat.repr n).data, c.isDigit = true := by
  intro c hc
  exact toDigitsCore_all_digits (n + 1) n [] (by simp) c hc

theorem repr_single_digit (m : ℕ) (h : m < 10) :
    (Nat.repr m).data = [Nat.digitChar m] := by
  interval_cases m <;> rfl

theorem fmt1_shape (q : ℚ) :
    ∃ pre d, (fmt1 q).data = pre ++ ['.', d] ∧ d.isDigit = true ∧ '.' ∉ pre := by
  refine ⟨(if rndHalfEven (q * 10) < 0 then "-" else "").data ++
      (Nat.repr ((rndHalfEven (q * 10)).natAbs / 10)).data,
    Nat.digitChar ((rndHalfEven (q * 10)).natAbs % 10), ?_, ?_, ?_⟩
  · simp only [fmt1, String.data_append]
    rw [repr_single_digit _ (Nat.mod_lt _ (by norm_num))]
    simp [List.append_assoc]
  · exact digitChar_isDigit _ (Nat.mod_lt _ (by norm_num))
  · intro hmem
    rcases List.mem_append.mp hmem with h | h
    · by_cases hneg : rndHalfEven (q * 10) < 0
      · rw [if_pos hneg] at h
        simp only [List.mem_singleton, show ("-" : String).data = ['-'] from rfl] at h
        exact absurd h (by decide)
      · rw [if_neg hneg] at h
        simp at h
    · exact absurd (repr_all_digits _ '.' h) (by decide)

/-! ### Claim C6 -/

/-- **C6**: for every finalized table (the state of a run over any rows),
the report's keys are strictly ascending in code-point order; a key appears
in the report exactly when it has a `medicoes` count `> 0`; each entry's
string is `<minimum>/<mean>/<maximum>` with `mean = sum / count` by exact
division of the stored statistics; and every number `fmt1` renders ends in
`.` followed by exactly one digit (no other `.` appears in it). -/
theorem c6_report_shape (rows : List (List String)) :
    ((gerarResultados (finalState rows)).map Prod.fst).Pairwise (· < ·) ∧
    (∀ k, (∃ s, (k, s) ∈ gerarResultados (finalState rows)) ↔
      ∃ c, getV (finalState rows).medicoes k = some c ∧ 0 < c) ∧
    (∀ k s, (k, s) ∈ gerarResultados (finalState rows) →
      ∃ mn mx sm c, getV (finalState rows).minimas k = some mn ∧
        getV (finalState rows).maximas k = some mx ∧
        getV (finalState rows).somas k = some sm ∧
        getV (finalState rows).medicoes k = some c ∧ 0 < c ∧
        s = fmt1 mn ++ "/" ++ fmt1 (sm / (c : ℚ)) ++ "/" ++ fmt1 mx) ∧
    (∀ q : ℚ, ∃ pre d, (fmt1 q).data = pre ++ ['.', d] ∧ d.isDigit = true ∧
      '.' ∉ pre) := by
  have hfinal : finalState rows = applyRecs initState (validRecs rows) := by
    unfold finalState
    rw [processRows_eq]
  have hnd : (keysOf (finalState rows).medicoes).Nodup := by
    rw [hfinal]
    exact nodup_keysOf_medicoes_applyRecs _ initState (by simp [initState, keysOf])
  have hkeysEq := applyRecs_keys_eq (validRecs rows) initState rfl rfl rfl
  have hminKeys : keysOf (finalState rows).minimas = keysOf (finalState rows).medicoes := by
    rw [hfinal]; exact hkeysEq.1
  have hmaxKeys : keysOf (finalState rows).maximas = keysOf (finalState rows).medicoes := by
    rw [hfinal]; exact hkeysEq.2.1
  have hsomKeys : keysOf (finalState rows).somas = keysOf (finalState rows).medicoes := by
    rw [hfinal]; exact hkeysEq.2.2
  have hResNodup := resultados_keys_nodup (finalState rows) hnd
  have hSortNodup : (((( (finalState rows).medicoes.filterMap
      (resultEntry (finalState rows))).insertionSort keyLe)).map Prod.fst).Nodup := by
    exact ((List.perm_insertionSort keyLe _).map Prod.fst).nodup_iff.mpr hResNodup
  refine ⟨?_, ?_, ?_, fmt1_shape⟩
  · have hlt := sorted_keyLt_of_nodup _ (List.sorted_insertionSort keyLe
      ((finalState rows).medicoes.filterMap (resultEntry (finalState rows)))) hSortNodup
    show ((((finalState rows).medicoes.filterMap (resultEntry (finalState rows))).insertionSort
      keyLe).map (fun p => (p.1, fmt1 p.2.1 ++ "/" ++ fmt1 p.2.2.1 ++ "/" ++
        fmt1 p.2.2.2))).map Prod.fst |>.Pairwise (· < ·)
    rw [List.map_map]
    exact List.pairwise_map.mpr hlt
  · intro k
    constructor
    · rintro ⟨s, hs⟩
      obtain ⟨t, ht, _⟩ := (gerar_entries (finalState rows) k s).mp hs
      obtain ⟨c, hc, h0, _⟩ := (mem_resultados_iff (finalState rows) hnd k t).mp
        ((List.mem_insertionSort keyLe).mp ht)
      exact ⟨c, hc, Nat.pos_of_ne_zero h0⟩
    · rintro ⟨c, hc, h0⟩
      refine ⟨_, (gerar_entries (finalState rows) k _).mpr
        ⟨(getD (finalState rows).minimas k 0, getD (finalState rows).somas k 0 / (c : ℚ),
          getD (finalState rows).maximas k 0),
          (List.mem_insertionSort keyLe).mpr
            ((mem_resultados_iff (finalState rows) hnd k _).mpr
              ⟨c, hc, Nat.pos_iff_ne_zero.mp h0, rfl⟩), rfl⟩⟩
  · intro k s hs
    obtain ⟨t, ht, hfmt⟩ := (gerar_entries (finalState rows) k s).mp hs
    obtain ⟨c, hc, h0, ht2⟩ := (mem_resultados_iff (finalState rows) hnd k t).mp
      ((List.mem_insertionSort keyLe).mp ht)
    have hkmem : k ∈ keysOf (finalState rows).medicoes := by
      by_contra hk
      rw [← getV_eq_none_iff] at hk
      rw [hk] at hc
      exact absurd hc (by simp)
    obtain ⟨mn, hmn⟩ : ∃ mn, getV (finalState rows).minimas k = some mn := by
      have : getV (finalState rows).minimas k ≠ none := by
        intro hnone
        rw [getV_eq_none_iff, hminKeys] at hnone
        exact hnone hkmem
      cases hgv : getV (finalState rows).minimas k with
      | none => exact absurd hgv this
      | some mn => exact ⟨mn, rfl⟩
    obtain ⟨mx, hmx⟩ : ∃ mx, getV (finalState rows).maximas k = some mx := by
      have : getV (finalState rows).maximas k ≠ none := by
        intro hnone
        rw [getV_eq_none_iff, hmaxKeys] at hnone
        exact hnone hkmem
      cases hgv : getV (finalState rows).maximas k with
      | none => exact absurd hgv this
      | some mx => exact ⟨mx, rfl⟩
    obtain ⟨sm, hsm⟩ : ∃ sm, getV (finalState rows).somas k = some sm := by
      have : getV (finalState rows).somas k ≠ none := by
        intro hnone
        rw [getV_eq_none_iff, hsomKeys] at hnone
        exact hnone hkmem
      cases hgv : getV (finalState rows).somas k with
      | none => exact absurd hgv this
      | some sm => exact ⟨sm, rfl⟩
    refine ⟨mn, mx, sm, c, hmn, hmx, hsm, hc, Nat.pos_of_ne_zero h0, ?_⟩
    rw [hfmt, ht2]
    simp [getD, hmn, hmx, hsm]

/-- Witness for `c6_report_shape`: the report membership criterion applied
on a concrete two-station run. -/
theorem c6_report_shape_witness :
    ∃ c, getV (finalState [["B", "2.0"], ["A", "1.0"]]).medicoes "A" = some c ∧ 0 < c := by
  refine ((c6_report_shape [["B", "2.0"], ["A", "1.0"]]).2.1 "A").mp ⟨"1.0/1.0/1.0", ?_⟩
  have h : gerarResultados (finalState [["B", "2.0"], ["A", "1.0"]]) =
      [("A", "1.0/1.0/1.0"), ("B", "2.0/2.0/2.0")] := by
    with_unfolding_all rfl
  rw [h]
  simp

/-! ### Claim C8 -/

theorem minStep_right_comm (x y : ℚ) (z : Option ℚ) :
    minStep (minStep z x) y = minStep (minStep z y) x := by
  cases z with
  | none => simp [minStep, ocomb, min_comm]
  | some a => simp [minStep, ocomb, min_right_comm]

theorem maxStep_right_comm (x y : ℚ) (z : Option ℚ) :
    maxStep (maxStep z x) y = maxStep (maxStep z y) x := by
  cases z with
  | none => simp [maxStep, ocomb, max_comm]
  | some a => simp [maxStep, ocomb, sup_right_comm]

/-- **C8**: permutation invariance.  Any two row streams whose valid records
carry, per key, the same multiset of contributed values produce the
identical report.  (In the rational model the sum is exact, so the
floating-point order-sensitivity the claim sets aside does not arise.) -/
theorem c8_permutation_invariance (rows1 rows2 : List (List String))
    (hv : ∀ k, (valsOf k (validRecs rows1) : Multiset ℚ) =
      (valsOf k (validRecs rows2) : Multiset ℚ)) :
    gerarResultados (finalState rows1) = gerarResultados (finalState rows2) := by
  have hperm : ∀ k, List.Perm (valsOf k (validRecs rows1)) (valsOf k (validRecs rows2)) :=
    fun k => Multiset.coe_eq_coe.mp (hv k)
  have hf1 : finalState rows1 = applyRecs initState (validRecs rows1) := by
    unfold finalState
    rw [processRows_eq]
  have hf2 : finalState rows2 = applyRecs initState (validRecs rows2) := by
    unfold finalState
    rw [processRows_eq]
  have hnilIff : ∀ k, valsOf k (validRecs rows1) = [] ↔ valsOf k (validRecs rows2) = [] := by
    intro k
    constructor
    · intro h
      exact ((h ▸ hperm k).symm).eq_nil
    · intro h
      exact (h ▸ hperm k).eq_nil
  have hmed : ∀ k, getV (finalState rows1).medicoes k = getV (finalState rows2).medicoes k := by
    intro k
    rw [hf1, hf2, getV_medicoes_applyRecs, getV_medicoes_applyRecs]
    show (valsOf k (validRecs rows1)).foldl cntStep none =
      (valsOf k (validRecs rows2)).foldl cntStep none
    rw [foldl_cntStep_none, foldl_cntStep_none]
    rcases eq_or_ne (valsOf k (validRecs rows1)) [] with h | h
    · rw [if_pos h, if_pos ((hnilIff k).mp h)]
    · rw [if_neg h, if_neg fun h2 => h ((hnilIff k).mpr h2), (hperm k).length_eq]
  have hsom : ∀ k, getV (finalState rows1).somas k = getV (finalState rows2).somas k := by
    intro k
    rw [hf1, hf2, getV_somas_applyRecs, getV_somas_applyRecs]
    show (valsOf k (validRecs rows1)).foldl sumStep none =
      (valsOf k (validRecs rows2)).foldl sumStep none
    rw [foldl_sumStep_none, foldl_sumStep_none]
    rcases eq_or_ne (valsOf k (validRecs rows1)) [] with h | h
    · rw [if_pos h, if_pos ((hnilIff k).mp h)]
    · rw [if_neg h, if_neg fun h2 => h ((hnilIff k).mpr h2), (hperm k).sum_eq]
  have hmin : ∀ k, getV (finalState rows1).minimas k = getV (finalState rows2).minimas k := by
    intro k
    rw [hf1, hf2, getV_minimas_applyRecs, getV_minimas_applyRecs]
    show (valsOf k (validRecs rows1)).foldl minStep none =
      (valsOf k (validRecs rows2)).foldl minStep none
    exact (hperm k).foldl_eq' (fun x _ y _ z => minStep_right_comm x y z) none
  have hmax : ∀ k, getV (finalState rows1).maximas k = getV (finalState rows2).maximas k := by
    intro k
    rw [hf1, hf2, getV_maximas_applyRecs, getV_maximas_applyRecs]
    show (valsOf k (validRecs rows1)).foldl maxStep none =
      (valsOf k (validRecs rows2)).foldl maxStep none
    exact (hperm k).foldl_eq' (fun x _ y _ z => maxStep_right_comm x y z) none
  have hnd1 : (keysOf (finalState rows1).medicoes).Nodup := by
    rw [hf1]
    exact nodup_keysOf_medicoes_applyRecs _ initState (by simp [initState, keysOf])
  have hnd2 : (keysOf (finalState rows2).medicoes).Nodup := by
    rw [hf2]
    exact nodup_keysOf_medicoes_applyRecs _ initState (by simp [initState, keysOf])
  have hrn1 : ((finalState rows1).medicoes.filterMap (resultEntry (finalState rows1))).Nodup :=
    (resultados_keys_nodup _ hnd1).of_map Prod.fst
  have hrn2 : ((finalState rows2).medicoes.filterMap (resultEntry (finalState rows2))).Nodup :=
    (resultados_keys_nodup _ hnd2).of_map Prod.fst
  have hrperm : List.Perm
      ((finalState rows1).medicoes.filterMap (resultEntry (finalState rows1)))
      ((finalState rows2).medicoes.filterMap (resultEntry (finalState rows2))) := by
    rw [List.perm_ext_iff_of_nodup hrn1 hrn2]
    intro p
    obtain ⟨k, t⟩ := p
    rw [mem_resultados_iff _ hnd1, mem_resultados_iff _ hnd2]
    constructor
    · rintro ⟨c, hc, h0, rfl⟩
      refine ⟨c, by rw [← hmed k]; exact hc, h0, ?_⟩
      rw [getD, getD, getD, getD, getD, getD, hmin k, hsom k, hmax k]
    · rintro ⟨c, hc, h0, rfl⟩
      refine ⟨c, by rw [hmed k]; exact hc, h0, ?_⟩
      rw [getD, getD, getD, getD, getD, getD, hmin k, hsom k, hmax k]
  have hs1 := List.sorted_insertionSort keyLe
    ((finalState rows1).medicoes.filterMap (resultEntry (finalState rows1)))
  have hs2 := List.sorted_insertionSort keyLe
    ((finalState rows2).medicoes.filterMap (resultEntry (finalState rows2)))
  have hnds1 := ((List.perm_insertionSort keyLe _).map Prod.fst).nodup_iff.mpr
    (resultados_keys_nodup _ hnd1)
  have hnds2 := ((List.perm_insertionSort keyLe _).map Prod.fst).nodup_iff.mpr
    (resultados_keys_nodup _ hnd2)
  have hsortperm : List.Perm
      (((finalState rows1).medicoes.filterMap
        (resultEntry (finalState rows1))).insertionSort keyLe)
      (((finalState rows2).medicoes.filterMap
        (resultEntry (finalState rows2))).insertionSort keyLe) :=
    ((List.perm_insertionSort keyLe _).trans hrperm).trans
      (List.perm_insertionSort keyLe _).symm
  have heq := List.eq_of_perm_of_sorted (r := keyLt) hsortperm
    (sorted_keyLt_of_nodup _ hs1 hnds1) (sorted_keyLt_of_nodup _ hs2 hnds2)
  show (((finalState rows1).medicoes.filterMap
      (resultEntry (finalState rows1))).insertionSort keyLe).map _ = _
  rw [heq]
  rfl

/-- Witness for `c8_permutation_invariance`: two records swapped. -/
theorem c8_permutation_invariance_witness :
    gerarResultados (finalState [["A", "1.0"], ["B", "2.0"]]) =
      gerarResultados (finalState [["B", "2.0"], ["A", "1.0"]]) := by
  apply c8_permutation_invariance
  intro k
  have h1 : validRecs [["A", "1.0"], ["B", "2.0"]] = [("A", 1), ("B", 2)] := by
    with_unfolding_all rfl
  have h2 : validRecs [["B", "2.0"], ["A", "1.0"]] = [("B", 2), ("A", 1)] := by
    with_unfolding_all rfl
  rw [h1, h2]
  by_cases hA : "A" = k
  · by_cases hB : "B" = k
    · rw [← hB] at hA
      exact absurd hA (by decide)
    · simp [valsOf, List.filter_cons, hA, hB]
  · by_cases hB : "B" = k
    · simp [valsOf, List.filter_cons, hA, hB]
    · simp [valsOf, List.filter_cons, hA, hB]

end OBRC
